import Mathlib

/- Shallow embedding of the SQIL agent module (mod/agents/sqil.py):
value-loss functions, the soft-Bellman target computation, the
reward-stratified demonstration sampler, the construction-time checks,
target-network synchronization, and the counter / update-scheduling
state machine of the observe path.

Modelling conventions:
  * float tensors are modelled as exact numbers: rationals for the
    loss / sampler arithmetic (decidable), reals where `exp` / `log`
    appear (the soft value);
  * a batched tensor operation that acts row-wise is modelled per row
    plus an explicit `List.map` over the rows;
  * external pfrl collaborators (replay buffer, `ReplayUpdater`,
    `synchronize_parameters`) are modelled from their documented
    contracts in the spec, which is noted at each such definition. -/

/-- Elementwise Huber loss with delta = 1, as computed by
`F.smooth_l1_loss(..., reduction="none")` in `compute_value_loss`. -/
def huber (d : ℚ) : ℚ := if |d| < 1 then d ^ 2 / 2 else |d| - 1 / 2

/-- `compute_value_loss` (sqil.py lines 31-49): Huber loss when
`clip_delta`, else squared error halved, reduced by mean or sum as
selected by `batch_accumulator` (asserted to be "mean" or "sum"). -/
def compute_value_loss (y t : List ℚ) (clip_delta : Bool) (batch_accumulator : String) : ℚ :=
  let losses := List.zipWith (fun a b => if clip_delta then huber (a - b) else (a - b) ^ 2 / 2) y t
  if batch_accumulator = "mean" then losses.sum / (losses.length : ℚ) else losses.sum

/-- `SQIL._compute_loss` (sqil.py line 535), expressed on the two
per-batch loss values produced by `SQIL.__compute_loss`:
`(exp_loss * self.experience_lambda + demo_loss) / 2`. -/
def SQIL._compute_loss (exp_loss demo_loss experience_lambda : ℚ) : ℚ :=
  (exp_loss * experience_lambda + demo_loss) / 2

/-- Maximum of a row of Q-values, as computed by
`q_values.max(dim=-1)` (undefined on an empty row; 0 is a junk value
that every theorem excludes with a nonemptiness hypothesis). -/
def maxQ : List ℝ → ℝ
  | [] => 0
  | [x] => x
  | x :: y :: t => max x (maxQ (y :: t))

/-- Numerically-stable soft value of one row of target Q-values:
`max + log (sum (exp (q - max)))`, the row-level content of
sqil.py lines 453-459. -/
noncomputable def softValue (q : List ℝ) : ℝ :=
  maxQ q + Real.log ((q.map fun x => Real.exp (x - maxQ q)).sum)

/-- One row of `SQIL._compute_target_values` (sqil.py lines 444-466).
`next_q_max` models `torch.broadcast_tensors(max(dim=-1, keepdim),
q_values)[0]` restricted to one row (the per-row max repeated to the
row's shape); `next_q_max[:, 0]` is its first entry, here `headI`;
the zipWith models the elementwise `(q_values - next_q_max).exp()`,
summed over the action dimension and passed through `log`. The result
is `reward + discount * (1 - is_state_terminal) * next_q_soft`. -/
noncomputable def computeTargetValues (reward discount : ℝ) (is_state_terminal : Bool)
    (q_values : List ℝ) : ℝ :=
  let next_q_max := q_values.map fun _ => maxQ q_values
  let next_q_soft := next_q_max.headI +
    Real.log ((List.zipWith (fun a b => Real.exp (a - b)) q_values next_q_max).sum)
  reward + discount * (1 - if is_state_terminal then (1 : ℝ) else 0) * next_q_soft

/-- One row of an experience batch as consumed by
`SQIL._compute_target_values`: its reward, discount and terminal
columns, and the row of target-network Q-values at its next state. -/
structure TargetBatchRow where
  reward : ℝ
  discount : ℝ
  is_state_terminal : Bool
  next_q_values : List ℝ

/-- `SQIL._compute_target_values` over a whole batch: every tensor
operation in sqil.py lines 449-466 acts row-wise, so the batch result
is the row computation mapped over the rows. -/
noncomputable def SQIL._compute_target_values (batch : List TargetBatchRow) : List ℝ :=
  batch.map fun row =>
    computeTargetValues row.reward row.discount row.is_state_terminal row.next_q_values

/-- An observation, reduced to the one feature the sampler reads:
`np.array(ob)[-1, 0, 0]`, the normalized cumulative return embedded in
the last dimension of the observation. -/
structure Obs where
  cumReward : ℚ
deriving DecidableEq

/-- A stored transition dict (`state`, `action`, `reward`,
`next_state`, `next_action`, `is_state_terminal`). -/
structure Transition where
  state : Obs
  action : ℕ
  reward : ℚ
  next_state : Obs
  next_action : Option ℕ
  is_state_terminal : Bool
deriving DecidableEq

/-- One draw from the expert dataset:
`ob, act, _, next_ob, done = expert_dataset.sample()`. -/
structure DemoStep where
  ob : Obs
  act : ℕ
  rew : ℚ
  next_ob : Obs
  done : Bool

/-- The expert dataset, as the stream of draws its `sample()` method
returns (the n-th call yields the n-th element). -/
def ExpertDataset : Type := ℕ → DemoStep

/-- `RewardBasedSampler` state: the expert dataset with a cursor for
the next draw, the reward boundaries, the per-bucket FIFO buffers
(`len(reward_boundaries) + 1` of them), their capacity, and the fixed
demonstration reward. -/
structure RewardBasedSampler where
  expert_dataset : ExpertDataset
  cursor : ℕ
  reward_boundaries : List ℚ
  max_buffer_size : ℕ
  reward_scale : ℚ
  replay_buffers : List (List Transition)

/-- `RewardBasedSampler._policy_index` (sqil.py lines 145-148):
`np.sum(cum_reward > reward_boundaries / reward_boundaries[-1] - 1e-8)`,
the count of boundaries whose normalized value minus the tolerance is
below the observation's cumulative-return feature. The float literal
1e-8 is modelled as the exact rational. -/
def RewardBasedSampler._policy_index (reward_boundaries : List ℚ) (ob : Obs) : ℕ :=
  reward_boundaries.countP fun b =>
    decide (b / reward_boundaries.getLastD 0 - 1 / 100000000 < ob.cumReward)

/-- Append to one bucket. The buckets are
`pfrl.replay_buffers.ReplayBuffer(max_buffer_size, 1)` (external
collaborator): a bounded FIFO that evicts its oldest entry when a
transition is appended at capacity. -/
def fifoAppend (max_buffer_size : ℕ) (buf : List Transition) (x : Transition) : List Transition :=
  if buf.length < max_buffer_size then buf ++ [x] else buf.tail ++ [x]

/-- One iteration of the loop body of `RewardBasedSampler._update_buffer`
(sqil.py lines 151-159): draw from the expert dataset, classify by
`_policy_index`, append to the matching bucket. -/
def RewardBasedSampler.drawOne (s : RewardBasedSampler) : RewardBasedSampler :=
  let d := s.expert_dataset s.cursor
  let k := RewardBasedSampler._policy_index s.reward_boundaries d.ob
  { s with
    cursor := s.cursor + 1
    replay_buffers := s.replay_buffers.set k
      (fifoAppend s.max_buffer_size (s.replay_buffers.getD k [])
        { state := d.ob
          action := d.act
          reward := s.reward_scale
          next_state := d.next_ob
          next_action := none
          is_state_terminal := d.done }) }

/-- `RewardBasedSampler._update_buffer(n)`: `n` draw-and-classify
iterations. -/
def RewardBasedSampler._update_buffer (s : RewardBasedSampler) : ℕ → RewardBasedSampler
  | 0 => s
  | n + 1 => RewardBasedSampler._update_buffer s.drawOne n

/-- One step of the counting loop `n_samples[_policy_index(...)] += 1`
(sqil.py line 166). `List.set` out of range is the identity; the index
is in range because `_policy_index` is at most `len(reward_boundaries)`. -/
def bumpAt (ns : List ℕ) (k : ℕ) : List ℕ := ns.set k (ns.getD k 0 + 1)

/-- The `n_samples` list built by `RewardBasedSampler.sample`
(sqil.py lines 164-166): starts as `len(reward_boundaries) + 1` zeros,
then one bump per incoming experience at its policy index. -/
def countSamples (reward_boundaries : List ℚ) (exps : List Transition) : List ℕ :=
  exps.foldl
    (fun ns e => bumpAt ns (RewardBasedSampler._policy_index reward_boundaries e.state))
    (List.replicate (reward_boundaries.length + 1) 0)

/-- `RewardBasedSampler.sample` (sqil.py lines 161-172): top up the
buckets with `len(experiences)` fresh draws, count the incoming
experiences per bucket, then take that many stored demonstrations from
each bucket and concatenate in bucket order. `rbuf.sample(n)` of the
external replay buffer returns `n` stored transitions; which `n` is a
uniform random choice, modelled here as the first `n` (none of the
specified properties depend on the choice). Incoming experiences in
the source are one-step lists of dicts (`frame[0]["state"]`), modelled
directly as transitions. -/
def RewardBasedSampler.sample (s : RewardBasedSampler) (experiences : List Transition) :
    List Transition × RewardBasedSampler :=
  let s2 := s._update_buffer experiences.length
  let n_samples := countSamples s2.reward_boundaries experiences
  ((List.zipWith (fun buf n => buf.take n) s2.replay_buffers n_samples).flatten, s2)

/-- `load_experiences_from_demonstrations` (sqil.py lines 107-121):
raises when no expert dataset is given, else returns `batch_size`
one-step demonstration transitions labelled with the fixed reward. -/
def load_experiences_from_demonstrations (expert_dataset : Option ExpertDataset)
    (batch_size : ℕ) (reward : ℚ) : Except String (List (List Transition)) :=
  match expert_dataset with
  | none => Except.error "Expert dataset must be provided."
  | some ds => Except.ok ((List.range batch_size).map fun i =>
      [{ state := (ds i).ob
         action := (ds i).act
         reward := reward
         next_state := (ds i).next_ob
         next_action := none
         is_state_terminal := (ds i).done }])

/-- The Python test `replay_buffer.capacity is not None and
replay_buffer.capacity < replay_start_size` (sqil.py lines 317-321). -/
def capacity_below (capacity : Option ℕ) (replay_start_size : ℕ) : Bool :=
  match capacity with
  | none => false
  | some c => decide (c < replay_start_size)

/-- The constructor arguments of `SQIL.__init__` that its
construction-time checks and sampler selection read. -/
structure SQILConfig where
  batch_accumulator : String
  update_interval : ℕ
  target_update_interval : ℕ
  replay_start_size : ℕ
  capacity : Option ℕ
  expert_dataset : Option ExpertDataset
  reward_boundaries : Option (List ℚ)
  reward_scale : ℚ
  experience_lambda : ℚ

/-- The slice of a freshly constructed agent that the claims about
construction observe: which demonstration sampler was selected and the
initial counters (sqil.py lines 292-302). The sampler's bucket-filling
loop is not modelled (its termination depends on the dataset); only
whether a `RewardBasedSampler` was constructed, which needs both
`reward_boundaries` and an expert dataset. -/
structure SQILAgentInit where
  reward_based_sampler_boundaries : Option (List ℚ)
  t : ℕ
  optim_t : ℕ
  cumulative_steps : ℕ

/-- `SQIL.__init__` (sqil.py lines 212-322) reduced to its fatal
checks, in source order: the `batch_accumulator` assert (line 261),
the `target_update_interval % update_interval` assert (lines 284-286),
and the capacity check (lines 317-322). A missing expert dataset is
NOT checked here: line 292 silently sets `reward_based_sampler = None`
when either `reward_boundaries` or the dataset is absent. -/
def SQIL.init (cfg : SQILConfig) : Except String SQILAgentInit :=
  if ¬ (cfg.batch_accumulator = "mean" ∨ cfg.batch_accumulator = "sum") then
    Except.error "batch_accumulator must be mean or sum"
  else if ¬ (cfg.target_update_interval % cfg.update_interval = 0) then
    Except.error "target_update_interval should be a multiple of update_interval"
  else if capacity_below cfg.capacity cfg.replay_start_size then
    Except.error "Replay start size cannot exceed replay buffer capacity."
  else
    Except.ok
      { reward_based_sampler_boundaries :=
          match cfg.reward_boundaries, cfg.expert_dataset with
          | some bs, some _ => some bs
          | _, _ => none
        t := 0
        optim_t := 0
        cumulative_steps := 0 }

/-- The scheduling parameters shared by the agent and its
`ReplayUpdater`. -/
structure SQILParams where
  replay_start_size : ℕ
  update_interval : ℕ
  target_update_interval : ℕ
  n_times_update : ℕ
  capacity : Option ℕ

/-- The counter slice of the mutable agent state: `self.t`,
`self.optim_t`, `self._cumulative_steps`, and the replay buffer's
length. -/
structure AgentState where
  t : ℕ
  optim_t : ℕ
  cumulative_steps : ℕ
  replay_buffer_len : ℕ
deriving DecidableEq

/-- Counters of a freshly constructed agent (sqil.py lines 300-302;
the replay buffer starts empty). -/
def AgentState.init : AgentState :=
  { t := 0, optim_t := 0, cumulative_steps := 0, replay_buffer_len := 0 }

/-- Effect of `replay_buffer.append` on the buffer's length: grows by
one until capacity, where the FIFO eviction keeps it constant
(external pfrl replay buffer, per the spec's Experience Store). -/
def replay_buffer_append (capacity : Option ℕ) (n : ℕ) : ℕ :=
  match capacity with
  | none => n + 1
  | some c => if n < c then n + 1 else n

/-- `SQIL._can_start_replay` (sqil.py lines 643-648), non-recurrent
path: false exactly when the buffer holds fewer than
`replay_start_size` transitions. -/
def SQIL._can_start_replay (replay_start_size replay_buffer_len : ℕ) : Bool :=
  if replay_buffer_len < replay_start_size then false else true

/-- Modelled from the spec: `ReplayUpdater.update_if_necessary` (a
pfrl collaborator, not in src/), per spec section 4.4: fire iff the
buffer holds at least `replay_start_size` transitions and the step
count is a multiple of `update_interval`; each firing runs the update
function `n_times_update` times, and each run ends with
`self.optim_t += 1` (sqil.py line 413). The buffer-size gate is the
same condition as src's `SQIL._can_start_replay`. -/
def ReplayUpdater.update_if_necessary (p : SQILParams) (s : AgentState) : AgentState :=
  if SQIL._can_start_replay p.replay_start_size s.replay_buffer_len
      && decide (s.t % p.update_interval = 0) then
    { s with optim_t := s.optim_t + p.n_times_update }
  else s

/-- One iteration of the per-slot loop of `SQIL._batch_observe_train`
(sqil.py lines 580-613): increment `t` and `_cumulative_steps`, sync
the target network on its cadence (no counter effect), append a
transition when a previous observation is cached (`hasTransition`),
then invoke the update gate at the new `t`. -/
def observeSlot (p : SQILParams) (s : AgentState) (hasTransition : Bool) : AgentState :=
  let s1 := { s with t := s.t + 1, cumulative_steps := s.cumulative_steps + 1 }
  let s2 :=
    if hasTransition then
      { s1 with replay_buffer_len := replay_buffer_append p.capacity s1.replay_buffer_len }
    else s1
  ReplayUpdater.update_if_necessary p s2

/-- `SQIL._batch_observe_train` on the counter slice: the per-slot
loop folded over the batch of environment slots (each slot tagged with
whether it appends a transition). -/
def SQIL._batch_observe_train (p : SQILParams) (s : AgentState) (slots : List Bool) : AgentState :=
  slots.foldl (observeSlot p) s

/-- The public operations of the agent that could touch its counters. -/
inductive AgentOp where
  | observe_train (slots : List Bool)
  | observe_eval
  | act
  | sync_target
  | stop_episode
  | get_statistics
  | direct_update

/-- Effect of each public operation on the counter slice. Only the
training observe path touches `t` and `_cumulative_steps` (sqil.py
lines 581-582); a direct `update` call touches only `optim_t` (line
413); `batch_act`, `_batch_observe_eval`, `sync_target_network`,
`stop_episode` and `get_statistics` touch none of them. -/
def AgentState.step (p : SQILParams) (s : AgentState) : AgentOp → AgentState
  | AgentOp.observe_train slots => SQIL._batch_observe_train p s slots
  | AgentOp.observe_eval => s
  | AgentOp.act => s
  | AgentOp.sync_target => s
  | AgentOp.stop_episode => s
  | AgentOp.get_statistics => s
  | AgentOp.direct_update => { s with optim_t := s.optim_t + 1 }

/-- A value network: its parameter vector and its train/eval mode flag
(`torch.nn.Module.training`). -/
structure Network where
  params : List ℝ
  training : Bool

/-- Modelled from the spec: `synchronize_parameters` (a pfrl utility,
not in src/), per spec section 4.5: `hard` copies the online
parameters into the target; `soft` blends them,
`target <- (1 - tau) * target + tau * online` componentwise. -/
def synchronize_parameters (src dst : Network) (method : String) (tau : ℝ) : Network :=
  if method = "hard" then { dst with params := src.params }
  else if method = "soft" then
    { dst with params := List.zipWith (fun d o => (1 - tau) * d + tau * o) dst.params src.params }
  else dst

/-- The slice of the agent read and written by
`SQIL.sync_target_network`. -/
structure SyncSlice where
  model : Network
  target_model : Option Network
  target_update_method : String
  soft_update_tau : ℝ

/-- `SQIL.sync_target_network` (sqil.py lines 329-349): on the first
call (`target_model is None`) deep-copy the online network and force
it into evaluation mode (`.eval()`, i.e. `training := false`);
afterwards delegate to `synchronize_parameters` with the configured
method and tau. -/
def sync_target_network (s : SyncSlice) : SyncSlice :=
  match s.target_model with
  | none =>
    { s with target_model := some { params := s.model.params, training := false } }
  | some tm =>
    let tm2 := synchronize_parameters s.model tm s.target_update_method s.soft_update_tau
    { s with target_model := some tm2 }

/-- A minimal concrete transition, used for witnesses: its state
carries the given cumulative-return feature. -/
def demoTransition (c : ℚ) (a : ℕ) : Transition :=
  { state := { cumReward := c }
    action := a
    reward := 0
    next_state := { cumReward := c }
    next_action := none
    is_state_terminal := false }

/-- A concrete sampler state used to witness the sampling claims:
one boundary (two buckets), bucket capacity 2, one stored transition
per bucket, and a constant expert dataset whose draws classify into
bucket 0. -/
def samplerWitness : RewardBasedSampler :=
  { expert_dataset := fun _ =>
      { ob := { cumReward := 0 }
        act := 0
        rew := 0
        next_ob := { cumReward := 0 }
        done := false }
    cursor := 0
    reward_boundaries := [1]
    max_buffer_size := 2
    reward_scale := 1
    replay_buffers := [[demoTransition 0 10], [demoTransition 5 11]] }

/-- Unfolding of `maxQ` on a cons with a nonempty tail. -/
theorem maxQ_cons (a : ℝ) (t : List ℝ) (h : t ≠ []) : maxQ (a :: t) = max a (maxQ t) := by
  cases t with
  | nil => exact absurd rfl h
  | cons y t2 => rfl

/-- Every entry of a row is at most the row max. -/
theorem le_maxQ (q : List ℝ) : ∀ x ∈ q, x ≤ maxQ q := by
  induction q with
  | nil => intro x hx; cases hx
  | cons a t ih =>
    intro x hx
    cases t with
    | nil =>
      rcases List.mem_singleton.mp hx with rfl
      exact le_of_eq rfl
    | cons y t2 =>
      rcases List.mem_cons.mp hx with h | h
      · subst h; exact le_max_left _ _
      · exact le_trans (ih x h) (le_max_right _ _)

/-- The row max is one of the entries. -/
theorem maxQ_mem (q : List ℝ) (h : q ≠ []) : maxQ q ∈ q := by
  induction q with
  | nil => exact absurd rfl h
  | cons a t ih =>
    cases t with
    | nil => simp [maxQ]
    | cons y t2 =>
      rw [maxQ_cons a (y :: t2) (by simp)]
      rcases le_total a (maxQ (y :: t2)) with hc | hc
      · rw [max_eq_right hc]
        exact List.mem_cons_of_mem _ (ih (by simp))
      · rw [max_eq_left hc]
        exact List.mem_cons_self _ _

/-- The elementwise `(q_values - next_q_max).exp()` with the broadcast
max equals mapping `exp (. - max)` over the row. -/
theorem zipWith_exp_broadcast (q : List ℝ) (c : ℝ) :
    List.zipWith (fun a b => Real.exp (a - b)) q (q.map fun _ => c)
      = q.map fun a => Real.exp (a - c) := by
  induction q with
  | nil => rfl
  | cons a t ih => simp only [List.map_cons, List.zipWith_cons_cons, ih]

/-- First entry of the broadcast row. -/
theorem headI_map_const (q : List ℝ) (c : ℝ) (h : q ≠ []) : (q.map fun _ => c).headI = c := by
  cases q with
  | nil => exact absurd rfl h
  | cons a t => rfl

/-- The row target computation, written with `softValue`. -/
theorem computeTargetValues_eq_softValue (reward discount : ℝ) (b : Bool) (q : List ℝ)
    (h : q ≠ []) :
    computeTargetValues reward discount b q
      = reward + discount * (1 - if b then (1 : ℝ) else 0) * softValue q := by
  simp only [computeTargetValues, softValue, zipWith_exp_broadcast, headI_map_const q (maxQ q) h]

/-- Sums of mapped nonnegative values are nonnegative. -/
theorem sum_map_nonneg (f : ℝ → ℝ) (hf : ∀ x : ℝ, 0 ≤ f x) (l : List ℝ) :
    0 ≤ (l.map f).sum := by
  induction l with
  | nil => simp
  | cons b t ih =>
    simp only [List.map_cons, List.sum_cons]
    exact add_nonneg (hf b) ih

/-- Sums of mapped positive values over a nonempty list are positive. -/
theorem sum_map_pos (f : ℝ → ℝ) (hf : ∀ x : ℝ, 0 < f x) (l : List ℝ) (h : l ≠ []) :
    0 < (l.map f).sum := by
  apply List.sum_pos
  · intro x hx
    rcases List.mem_map.mp hx with ⟨a, _, rfl⟩
    exact hf a
  · simpa using h

/-- A single mapped value bounds the sum of the mapped list from below. -/
theorem le_sum_map (f : ℝ → ℝ) (hf : ∀ x : ℝ, 0 < f x) (l : List ℝ) (a : ℝ) (ha : a ∈ l) :
    f a ≤ (l.map f).sum := by
  induction l with
  | nil => cases ha
  | cons b t ih =>
    simp only [List.map_cons, List.sum_cons]
    rcases List.mem_cons.mp ha with h | h
    · subst h
      have := sum_map_nonneg f (fun x => le_of_lt (hf x)) t
      linarith
    · have h1 := ih h
      have h2 := le_of_lt (hf b)
      linarith

/-- With at least two entries the bound is strict. -/
theorem lt_sum_map (f : ℝ → ℝ) (hf : ∀ x : ℝ, 0 < f x) (l : List ℝ) (a : ℝ) (ha : a ∈ l)
    (h2 : 2 ≤ l.length) : f a < (l.map f).sum := by
  cases l with
  | nil => cases ha
  | cons b t =>
    have ht : t ≠ [] := by
      cases t
      · simp at h2
      · simp
    simp only [List.map_cons, List.sum_cons]
    rcases List.mem_cons.mp ha with h | h
    · subst h
      have := sum_map_pos f hf t ht
      linarith
    · have h1 := le_sum_map f hf t a h
      have h3 := hf b
      linarith

/-- The soft value dominates the hard max. -/
theorem maxQ_le_softValue (q : List ℝ) (h : q ≠ []) : maxQ q ≤ softValue q := by
  have h1 : (1 : ℝ) ≤ (q.map fun x => Real.exp (x - maxQ q)).sum := by
    have := le_sum_map (fun x => Real.exp (x - maxQ q)) (fun x => Real.exp_pos _) q
      (maxQ q) (maxQ_mem q h)
    simpa using this
  have h2 := Real.log_nonneg h1
  unfold softValue
  linarith

/-- With at least two actions the soft value strictly dominates the
hard max. -/
theorem maxQ_lt_softValue (q : List ℝ) (h2 : 2 ≤ q.length) : maxQ q < softValue q := by
  have hne : q ≠ [] := by
    cases q
    · simp at h2
    · simp
  have h1 : (1 : ℝ) < (q.map fun x => Real.exp (x - maxQ q)).sum := by
    have := lt_sum_map (fun x => Real.exp (x - maxQ q)) (fun x => Real.exp_pos _) q
      (maxQ q) (maxQ_mem q hne) h2
    simpa using this
  have h3 := Real.log_pos h1
  unfold softValue
  linarith

/-- On a single action the soft value is exactly that action's Q-value. -/
theorem softValue_singleton (x : ℝ) : softValue [x] = x := by
  simp [softValue, maxQ]

/-- C7: for every transition with `is_state_terminal = true`, the
computed soft-Bellman target equals the transition's reward exactly,
whatever the target network's Q-values at the next state are. -/
theorem c7_terminal_target_is_reward (reward discount : ℝ) (q_values : List ℝ) :
    computeTargetValues reward discount true q_values = reward := by
  simp [computeTargetValues]

/-- C1: for every experience batch (with a nonempty action set per
row), `SQIL._compute_target_values` returns, rowwise,
`reward + discount * (1 - is_state_terminal) * softvalue(next_state)`
with `softvalue = max + log (sum (exp (q - max)))` over the target
network's Q-values; and this soft value is not the hard max: on a
non-terminal row with at least two actions and positive discount the
target strictly exceeds the hard-max backup. -/
theorem c1_target_is_soft_bellman (batch : List TargetBatchRow)
    (h : ∀ row ∈ batch, row.next_q_values ≠ []) :
    SQIL._compute_target_values batch
        = batch.map (fun row =>
            row.reward + row.discount * (1 - if row.is_state_terminal then (1 : ℝ) else 0) *
              (maxQ row.next_q_values +
                Real.log ((row.next_q_values.map fun x =>
                  Real.exp (x - maxQ row.next_q_values)).sum))) ∧
    ∀ row ∈ batch, row.is_state_terminal = false → 0 < row.discount →
      2 ≤ row.next_q_values.length →
      row.reward + row.discount * maxQ row.next_q_values <
        computeTargetValues row.reward row.discount row.is_state_terminal row.next_q_values := by
  constructor
  · unfold SQIL._compute_target_values
    apply List.map_congr_left
    intro row hrow
    rw [computeTargetValues_eq_softValue row.reward row.discount row.is_state_terminal
      row.next_q_values (h row hrow)]
    rfl
  · intro row hrow hterm hdisc hlen
    have hne : row.next_q_values ≠ [] := h row hrow
    rw [hterm, computeTargetValues_eq_softValue row.reward row.discount false
      row.next_q_values hne]
    have hs := maxQ_lt_softValue row.next_q_values hlen
    have h2 : row.discount * maxQ row.next_q_values < row.discount * softValue row.next_q_values :=
      mul_lt_mul_of_pos_left hs hdisc
    simp only [Bool.false_eq_true, if_false, sub_zero, mul_one]
    linarith

/-- Witness for C1 at a concrete one-row batch. -/
theorem c1_target_is_soft_bellman_witness :
    ∃ batch : List TargetBatchRow,
      (∀ row ∈ batch, row.next_q_values ≠ []) ∧
      (SQIL._compute_target_values batch
          = batch.map (fun row =>
              row.reward + row.discount * (1 - if row.is_state_terminal then (1 : ℝ) else 0) *
                (maxQ row.next_q_values +
                  Real.log ((row.next_q_values.map fun x =>
                    Real.exp (x - maxQ row.next_q_values)).sum))) ∧
        ∀ row ∈ batch, row.is_state_terminal = false → 0 < row.discount →
          2 ≤ row.next_q_values.length →
          row.reward + row.discount * maxQ row.next_q_values <
            computeTargetValues row.reward row.discount row.is_state_terminal
              row.next_q_values) :=
  ⟨[{ reward := 1, discount := 1 / 2, is_state_terminal := false, next_q_values := [0, 1] }],
    by simp, c1_target_is_soft_bellman _ (by simp)⟩

/-- C2: the combined loss is
`(loss(exp_batch) * experience_lambda + loss(demo_batch)) / 2`;
swapping the experience and demonstration roles leaves every loss
value unchanged exactly when `experience_lambda = 1`, and when
`experience_lambda` differs from 1 there are concrete batches with
distinct losses on which the swap changes the combined loss. -/
theorem c2_combined_loss_swap (lam : ℚ) :
    (∀ ey et dy dt clip acc,
       SQIL._compute_loss (compute_value_loss ey et clip acc)
           (compute_value_loss dy dt clip acc) lam
         = (compute_value_loss ey et clip acc * lam + compute_value_loss dy dt clip acc) / 2) ∧
    ((∀ exp_loss demo_loss : ℚ,
        SQIL._compute_loss exp_loss demo_loss lam = SQIL._compute_loss demo_loss exp_loss lam)
      ↔ lam = 1) ∧
    (lam ≠ 1 → ∃ ey et dy dt : List ℚ,
       compute_value_loss ey et true "mean" ≠ compute_value_loss dy dt true "mean" ∧
       SQIL._compute_loss (compute_value_loss ey et true "mean")
           (compute_value_loss dy dt true "mean") lam
         ≠ SQIL._compute_loss (compute_value_loss dy dt true "mean")
             (compute_value_loss ey et true "mean") lam) := by
  refine ⟨fun _ _ _ _ _ _ => rfl, ⟨?_, ?_⟩, ?_⟩
  · intro h
    have h01 := h 0 1
    unfold SQIL._compute_loss at h01
    field_simp at h01
    linarith
  · intro h le ld
    subst h
    unfold SQIL._compute_loss
    ring
  · intro h
    have hv1 : compute_value_loss [0] [0] true "mean" = 0 := by
      norm_num [compute_value_loss, huber]
    have hv2 : compute_value_loss [0] [1] true "mean" = 1 / 2 := by
      norm_num [compute_value_loss, huber, abs]
    refine ⟨[0], [0], [0], [1], by rw [hv1, hv2]; norm_num, ?_⟩
    rw [hv1, hv2]
    unfold SQIL._compute_loss
    intro hEq
    apply h
    field_simp at hEq
    linarith

/-- Witness for C2 applied at the concrete `experience_lambda = 2`. -/
theorem c2_combined_loss_swap_witness :
    ∃ ey et dy dt : List ℚ,
      compute_value_loss ey et true "mean" ≠ compute_value_loss dy dt true "mean" ∧
      SQIL._compute_loss (compute_value_loss ey et true "mean")
          (compute_value_loss dy dt true "mean") 2
        ≠ SQIL._compute_loss (compute_value_loss dy dt true "mean")
            (compute_value_loss ey et true "mean") 2 :=
  (c2_combined_loss_swap 2).2.2 (by norm_num)

/-- C6: the sampler's policy index is the count of reward boundaries
whose normalized value lies below the observation's cumulative-return
feature within tolerance 1e-8, and it always lies in
`[0, len(reward_boundaries)]`, selecting one of the
`len(reward_boundaries) + 1` buckets. -/
theorem c6_policy_index_counts_boundaries (reward_boundaries : List ℚ) (ob : Obs)
    (hb : reward_boundaries ≠ []) :
    RewardBasedSampler._policy_index reward_boundaries ob
        = reward_boundaries.countP (fun b =>
            decide (b / reward_boundaries.getLastD 0 < ob.cumReward + 1 / 100000000)) ∧
    RewardBasedSampler._policy_index reward_boundaries ob ≤ reward_boundaries.length := by
  refine ⟨?_, List.countP_le_length _⟩
  unfold RewardBasedSampler._policy_index
  apply List.countP_congr
  intro b _
  simp only [decide_eq_true_eq]
  exact sub_lt_iff_lt_add

/-- Witness for C6 at boundaries `[1, 2]` and cumulative return 1. -/
theorem c6_policy_index_counts_boundaries_witness :
    RewardBasedSampler._policy_index [1, 2] { cumReward := 1 }
        = List.countP (fun b =>
            decide (b / List.getLastD [(1 : ℚ), 2] 0 < 1 + 1 / 100000000)) [1, 2] ∧
    RewardBasedSampler._policy_index [1, 2] { cumReward := 1 } ≤ List.length [(1 : ℚ), 2] :=
  c6_policy_index_counts_boundaries [1, 2] { cumReward := 1 } (by simp)

/-- The capacity check of `SQIL.__init__`, rephrased. -/
theorem capacity_below_eq_false (capacity : Option ℕ) (replay_start_size : ℕ) :
    capacity_below capacity replay_start_size = false
      ↔ ∀ c, capacity = some c → replay_start_size ≤ c := by
  cases capacity <;> simp [capacity_below]

/-- C5 counterexample: constructing the agent with NO expert dataset
(while demonstration sampling is required: `reward_boundaries` given,
and every update path draws demonstrations) succeeds instead of
raising; the missing-dataset error is raised only later, at update
time, by `load_experiences_from_demonstrations`. -/
theorem c5_missing_dataset_does_not_raise_at_construction :
    (SQIL.init
      { batch_accumulator := "mean"
        update_interval := 1
        target_update_interval := 1
        replay_start_size := 10
        capacity := some 100
        expert_dataset := none
        reward_boundaries := some [1]
        reward_scale := 1
        experience_lambda := 1 }).isOk = true := rfl

/-- C5 amended: construction raises exactly when the reduction mode is
not "mean" or "sum", or `target_update_interval` is not a multiple of
`update_interval`, or the replay buffer's capacity is smaller than
`replay_start_size`; a missing expert dataset is not a construction
failure but makes demonstration loading raise at update time. -/
theorem c5_construction_checks (cfg : SQILConfig) :
    ((SQIL.init cfg).isOk = true ↔
      ((cfg.batch_accumulator = "mean" ∨ cfg.batch_accumulator = "sum") ∧
        cfg.target_update_interval % cfg.update_interval = 0 ∧
        ∀ c, cfg.capacity = some c → cfg.replay_start_size ≤ c)) ∧
    (∀ (batch_size : ℕ) (reward : ℚ),
      load_experiences_from_demonstrations none batch_size reward
        = Except.error "Expert dataset must be provided.") := by
  refine ⟨⟨?_, ?_⟩, fun _ _ => rfl⟩
  · intro h
    unfold SQIL.init at h
    by_cases h1 : cfg.batch_accumulator = "mean" ∨ cfg.batch_accumulator = "sum"
    · by_cases h2 : cfg.target_update_interval % cfg.update_interval = 0
      · by_cases h3 : capacity_below cfg.capacity cfg.replay_start_size = true
        · rw [if_neg (not_not_intro h1), if_neg (not_not_intro h2), if_pos h3] at h
          simp [Except.isOk, Except.toBool] at h
        · exact ⟨h1, h2, (capacity_below_eq_false cfg.capacity cfg.replay_start_size).mp
            (by simpa using h3)⟩
      · rw [if_neg (not_not_intro h1), if_pos h2] at h
        simp [Except.isOk, Except.toBool] at h
    · rw [if_pos h1] at h
      simp [Except.isOk, Except.toBool] at h
  · rintro ⟨ha, hm, hc⟩
    unfold SQIL.init
    rw [if_neg (not_not_intro ha), if_neg (not_not_intro hm),
      if_neg (by simp [(capacity_below_eq_false cfg.capacity cfg.replay_start_size).mpr hc])]
    rfl

/-- Appending never shrinks the replay buffer. -/
theorem le_replay_buffer_append (capacity : Option ℕ) (n : ℕ) :
    n ≤ replay_buffer_append capacity n := by
  cases capacity with
  | none => exact Nat.le_succ n
  | some c =>
    show n ≤ if n < c then n + 1 else n
    split_ifs
    · exact Nat.le_succ n
    · exact le_refl n

/-- The update gate never touches the replay buffer length. -/
theorem update_if_necessary_buf (p : SQILParams) (s : AgentState) :
    (ReplayUpdater.update_if_necessary p s).replay_buffer_len = s.replay_buffer_len := by
  unfold ReplayUpdater.update_if_necessary
  split_ifs <;> rfl

/-- Below `replay_start_size` the gate leaves `optim_t` unchanged. -/
theorem update_if_necessary_optim_of_lt (p : SQILParams) (s : AgentState)
    (h : s.replay_buffer_len < p.replay_start_size) :
    (ReplayUpdater.update_if_necessary p s).optim_t = s.optim_t := by
  unfold ReplayUpdater.update_if_necessary SQIL._can_start_replay
  rw [if_pos h]
  rfl

/-- One observe slot never shrinks the replay buffer. -/
theorem observeSlot_buf_mono (p : SQILParams) (s : AgentState) (b : Bool) :
    s.replay_buffer_len ≤ (observeSlot p s b).replay_buffer_len := by
  unfold observeSlot
  rw [update_if_necessary_buf]
  cases b
  · exact le_refl _
  · exact le_replay_buffer_append p.capacity s.replay_buffer_len

/-- A run of observe slots never shrinks the replay buffer. -/
theorem foldl_observe_buf_mono (p : SQILParams) (l : List Bool) (s : AgentState) :
    s.replay_buffer_len ≤ (l.foldl (observeSlot p) s).replay_buffer_len := by
  induction l generalizing s with
  | nil => exact le_refl _
  | cons b t ih => exact le_trans (observeSlot_buf_mono p s b) (ih (observeSlot p s b))

/-- One observe slot whose resulting buffer is still below
`replay_start_size` leaves `optim_t` unchanged. -/
theorem observeSlot_optim_of_lt (p : SQILParams) (s : AgentState) (b : Bool)
    (h : (observeSlot p s b).replay_buffer_len < p.replay_start_size) :
    (observeSlot p s b).optim_t = s.optim_t := by
  unfold observeSlot at h ⊢
  rw [update_if_necessary_buf] at h
  rw [update_if_necessary_optim_of_lt _ _ h]
  cases b <;> rfl

/-- A run of observe slots whose final buffer is still below
`replay_start_size` leaves `optim_t` unchanged. -/
theorem foldl_observe_optim_stable (p : SQILParams) (l : List Bool) (s : AgentState)
    (h : (l.foldl (observeSlot p) s).replay_buffer_len < p.replay_start_size) :
    (l.foldl (observeSlot p) s).optim_t = s.optim_t := by
  induction l generalizing s with
  | nil => rfl
  | cons b t ih =>
    have hlt : (observeSlot p s b).replay_buffer_len < p.replay_start_size :=
      lt_of_le_of_lt (foldl_observe_buf_mono p t (observeSlot p s b)) h
    rw [List.foldl_cons] at h ⊢
    rw [ih (observeSlot p s b) h, observeSlot_optim_of_lt p s b hlt]

/-- C4: starting from a fresh agent, after any sequence of training
observe calls during which the replay buffer never reaches
`replay_start_size` (equivalently, since the buffer never shrinks,
whose final buffer length is below it), the update counter `optim_t`
(reported as `n_updates`) is still 0. -/
theorem c4_no_update_before_replay_start (p : SQILParams) (calls : List (List Bool))
    (h : (calls.foldl (SQIL._batch_observe_train p) AgentState.init).replay_buffer_len
          < p.replay_start_size) :
    (calls.foldl (SQIL._batch_observe_train p) AgentState.init).optim_t = 0 := by
  have hflat : calls.foldl (SQIL._batch_observe_train p) AgentState.init
      = calls.flatten.foldl (observeSlot p) AgentState.init :=
    (List.foldl_flatten (observeSlot p) AgentState.init calls).symm
  rw [hflat] at h ⊢
  exact foldl_observe_optim_stable p calls.flatten AgentState.init h

set_option maxRecDepth 8000 in
/-- Witness for C4: `replay_start_size = 100` and 99 observe calls
each storing one transition leave `optim_t = 0`. -/
theorem c4_no_update_before_replay_start_witness :
    ((List.replicate 99 [true]).foldl
        (SQIL._batch_observe_train
          { replay_start_size := 100, update_interval := 1, target_update_interval := 1,
            n_times_update := 1, capacity := none })
        AgentState.init).replay_buffer_len < 100 ∧
    ((List.replicate 99 [true]).foldl
        (SQIL._batch_observe_train
          { replay_start_size := 100, update_interval := 1, target_update_interval := 1,
            n_times_update := 1, capacity := none })
        AgentState.init).optim_t = 0 :=
  ⟨by decide, c4_no_update_before_replay_start _ _ (by decide)⟩

/-- The update gate never touches `t`. -/
theorem update_if_necessary_t (p : SQILParams) (s : AgentState) :
    (ReplayUpdater.update_if_necessary p s).t = s.t := by
  unfold ReplayUpdater.update_if_necessary
  split_ifs <;> rfl

/-- The update gate never touches `_cumulative_steps`. -/
theorem update_if_necessary_cumulative (p : SQILParams) (s : AgentState) :
    (ReplayUpdater.update_if_necessary p s).cumulative_steps = s.cumulative_steps := by
  unfold ReplayUpdater.update_if_necessary
  split_ifs <;> rfl

/-- One observe slot advances `t` by exactly one. -/
theorem observeSlot_t (p : SQILParams) (s : AgentState) (b : Bool) :
    (observeSlot p s b).t = s.t + 1 := by
  unfold observeSlot
  rw [update_if_necessary_t]
  cases b <;> rfl

/-- One observe slot advances `_cumulative_steps` by exactly one. -/
theorem observeSlot_cumulative (p : SQILParams) (s : AgentState) (b : Bool) :
    (observeSlot p s b).cumulative_steps = s.cumulative_steps + 1 := by
  unfold observeSlot
  rw [update_if_necessary_cumulative]
  cases b <;> rfl

/-- A training observe call advances `t` by one per environment slot. -/
theorem batch_observe_train_t (p : SQILParams) (slots : List Bool) :
    ∀ s : AgentState, (SQIL._batch_observe_train p s slots).t = s.t + slots.length := by
  induction slots with
  | nil => intro s; rfl
  | cons b tl ih =>
    intro s
    show (SQIL._batch_observe_train p (observeSlot p s b) tl).t = s.t + (tl.length + 1)
    rw [ih (observeSlot p s b), observeSlot_t]
    omega

/-- A training observe call advances `_cumulative_steps` by one per
environment slot. -/
theorem batch_observe_train_cumulative (p : SQILParams) (slots : List Bool) :
    ∀ s : AgentState,
      (SQIL._batch_observe_train p s slots).cumulative_steps
        = s.cumulative_steps + slots.length := by
  induction slots with
  | nil => intro s; rfl
  | cons b tl ih =>
    intro s
    show (SQIL._batch_observe_train p (observeSlot p s b) tl).cumulative_steps
        = s.cumulative_steps + (tl.length + 1)
    rw [ih (observeSlot p s b), observeSlot_cumulative]
    omega

/-- Every public operation preserves `t = _cumulative_steps`. -/
theorem step_preserves_t_eq_cumulative (p : SQILParams) (s : AgentState) (op : AgentOp)
    (h : s.t = s.cumulative_steps) :
    (AgentState.step p s op).t = (AgentState.step p s op).cumulative_steps := by
  cases op with
  | observe_train slots =>
    show (SQIL._batch_observe_train p s slots).t
        = (SQIL._batch_observe_train p s slots).cumulative_steps
    rw [batch_observe_train_t p slots s, batch_observe_train_cumulative p slots s, h]
  | observe_eval => exact h
  | act => exact h
  | sync_target => exact h
  | stop_episode => exact h
  | get_statistics => exact h
  | direct_update => exact h

/-- C10: the step counter `t` and the cumulative counter
`_cumulative_steps` (exposed as `cumulative_steps`) start together at
0, are advanced together exactly once per environment slot of the
training observe path, and are touched by no other public operation,
so they are equal after any sequence of operations. -/
theorem c10_t_equals_cumulative_steps :
    (∀ (p : SQILParams) (ops : List AgentOp),
      (ops.foldl (AgentState.step p) AgentState.init).t
        = (ops.foldl (AgentState.step p) AgentState.init).cumulative_steps) ∧
    (∀ (p : SQILParams) (s : AgentState) (slots : List Bool),
      (SQIL._batch_observe_train p s slots).t = s.t + slots.length ∧
      (SQIL._batch_observe_train p s slots).cumulative_steps
        = s.cumulative_steps + slots.length) := by
  constructor
  · intro p ops
    suffices hgen : ∀ (l : List AgentOp) (s : AgentState), s.t = s.cumulative_steps →
        (l.foldl (AgentState.step p) s).t = (l.foldl (AgentState.step p) s).cumulative_steps by
      exact hgen ops AgentState.init rfl
    intro l
    induction l with
    | nil => intro s h; exact h
    | cons op tl ih =>
      intro s h
      exact ih (AgentState.step p s op) (step_preserves_t_eq_cumulative p s op h)
  · intro p s slots
    exact ⟨batch_observe_train_t p slots s, batch_observe_train_cumulative p slots s⟩

/-- A proper convex blend of two distinct reals lies strictly between
them. -/
theorem blend_strict_between (a b tau : ℝ) (h0 : 0 < tau) (h1 : tau < 1) (hne : a ≠ b) :
    min a b < (1 - tau) * a + tau * b ∧ (1 - tau) * a + tau * b < max a b := by
  rcases lt_or_gt_of_ne hne with h | h
  · rw [min_eq_left (le_of_lt h), max_eq_right (le_of_lt h)]
    constructor <;> nlinarith
  · rw [min_eq_right (le_of_lt h), max_eq_left (le_of_lt h)]
    constructor <;> nlinarith

/-- C8: the first sync (uninitialized target) produces a full clone of
the online network in evaluation-only mode; afterwards a "hard" sync
makes every target parameter equal the online one, and a "soft" sync
sets `target <- (1 - tau) * target + tau * online` componentwise, the
result lying strictly between the old target and online values
whenever they differ (for a blend coefficient strictly between 0 and
1). -/
theorem c8_target_sync :
    (∀ s : SyncSlice, s.target_model = none →
      (sync_target_network s).target_model
        = some { params := s.model.params, training := false }) ∧
    (∀ (s : SyncSlice) (tm : Network), s.target_model = some tm →
      s.target_update_method = "hard" →
      ∃ tm2 : Network, (sync_target_network s).target_model = some tm2 ∧
        tm2.params = s.model.params) ∧
    (∀ (s : SyncSlice) (tm : Network), s.target_model = some tm →
      s.target_update_method = "soft" →
      ∃ tm2 : Network, (sync_target_network s).target_model = some tm2 ∧
        tm2.params = List.zipWith
          (fun d o => (1 - s.soft_update_tau) * d + s.soft_update_tau * o)
          tm.params s.model.params ∧
        (0 < s.soft_update_tau → s.soft_update_tau < 1 →
          ∀ i, i < tm2.params.length →
            tm.params.getD i 0 ≠ s.model.params.getD i 0 →
            min (tm.params.getD i 0) (s.model.params.getD i 0) < tm2.params.getD i 0 ∧
            tm2.params.getD i 0 < max (tm.params.getD i 0) (s.model.params.getD i 0))) := by
  refine ⟨?_, ?_, ?_⟩
  · rintro ⟨model, tmo, method, tau⟩ h
    cases tmo with
    | none => rfl
    | some tm0 => exact absurd h (by simp)
  · rintro ⟨model, tmo, method, tau⟩ tm h hm
    cases tmo with
    | none => exact absurd h (by simp)
    | some tm0 =>
      have htm : tm0 = tm := by simpa using h
      subst htm
      subst hm
      refine ⟨synchronize_parameters model tm0 "hard" tau, rfl, ?_⟩
      simp [synchronize_parameters]
  · rintro ⟨model, tmo, method, tau⟩ tm h hm
    cases tmo with
    | none => exact absurd h (by simp)
    | some tm0 =>
      have htm : tm0 = tm := by simpa using h
      subst htm
      subst hm
      have hparams : (synchronize_parameters model tm0 "soft" tau).params
          = List.zipWith (fun d o => (1 - tau) * d + tau * o) tm0.params model.params := by
        simp [synchronize_parameters]
      refine ⟨synchronize_parameters model tm0 "soft" tau, rfl, hparams, ?_⟩
      intro h0 h1 i hi hne
      rw [hparams] at hi ⊢
      have hi12 : i < tm0.params.length ∧ i < model.params.length := by
        rw [List.length_zipWith, lt_min_iff] at hi
        exact hi
      rw [List.getD_eq_getElem _ 0 hi, List.getD_eq_getElem _ 0 hi12.1,
        List.getD_eq_getElem _ 0 hi12.2] at *
      rw [List.getElem_zipWith] at *
      exact blend_strict_between _ _ tau h0 h1 hne

/-- C9: for every nonempty Q-value row the computed soft value
(max plus log-sum-exp of centered values) dominates the hard max, with
equality exactly in the degenerate single-action case; and as the gap
between the max and all other Q-values grows without bound the soft
value converges to the hard max (for every tolerance and row size
there is a gap beyond which the difference is within tolerance). -/
theorem c9_soft_value_vs_hard_max :
    (∀ q : List ℝ, q ≠ [] →
      maxQ q ≤ softValue q ∧ (softValue q = maxQ q ↔ q.length = 1)) ∧
    (∀ ε : ℝ, 0 < ε → ∀ n : ℕ, ∃ M : ℝ, 0 < M ∧
      ∀ (a : ℝ) (t : List ℝ), t.length = n → (∀ x ∈ t, M ≤ a - x) →
        softValue (a :: t) - maxQ (a :: t) ≤ ε) := by
  constructor
  · intro q hq
    refine ⟨maxQ_le_softValue q hq, ?_, ?_⟩
    · intro heq
      by_contra hlen
      have h1 : 1 ≤ q.length := List.length_pos.mpr hq
      have h2 : 2 ≤ q.length := by omega
      exact absurd heq (ne_of_gt (maxQ_lt_softValue q h2))
    · intro hlen
      rcases List.length_eq_one.mp hlen with ⟨x, rfl⟩
      rw [softValue_singleton]
      rfl
  · intro ε hε n
    refine ⟨max 1 (Real.log (((n : ℝ) + 1) / ε)), lt_of_lt_of_le one_pos (le_max_left _ _), ?_⟩
    intro a t ht hfar
    set M := max 1 (Real.log (((n : ℝ) + 1) / ε)) with hMdef
    have hM1 : (1 : ℝ) ≤ M := le_max_left _ _
    have hxa : ∀ x ∈ t, x < a := by
      intro x hx
      have := hfar x hx
      linarith
    have hmax : maxQ (a :: t) = a := by
      cases t with
      | nil => rfl
      | cons y t2 =>
        rw [maxQ_cons a (y :: t2) (by simp)]
        have hm : maxQ (y :: t2) < a := hxa _ (maxQ_mem (y :: t2) (by simp))
        exact max_eq_left (le_of_lt hm)
    set S := (t.map fun x => Real.exp (x - a)).sum with hSdef
    have hS_eq : softValue (a :: t) - maxQ (a :: t) = Real.log (1 + S) := by
      unfold softValue
      rw [hmax]
      simp only [List.map_cons, List.sum_cons, sub_self, Real.exp_zero, hSdef]
      rw [add_sub_cancel_left]
    have hSle : S ≤ (n : ℝ) * Real.exp (-M) := by
      have hb : ∀ x ∈ t.map (fun x => Real.exp (x - a)), x ≤ Real.exp (-M) := by
        intro x hx
        rcases List.mem_map.mp hx with ⟨y, hy, rfl⟩
        exact Real.exp_le_exp.mpr (by have := hfar y hy; linarith)
      have h6 := List.sum_le_card_nsmul (t.map fun x => Real.exp (x - a)) (Real.exp (-M)) hb
      rw [List.length_map, ht] at h6
      simpa [nsmul_eq_mul, hSdef] using h6
    have hexpM : Real.exp (-M) ≤ ε / ((n : ℝ) + 1) := by
      have hpos : (0 : ℝ) < ((n : ℝ) + 1) / ε := by positivity
      have h2 : Real.exp (-M) ≤ Real.exp (-Real.log (((n : ℝ) + 1) / ε)) :=
        Real.exp_le_exp.mpr (neg_le_neg (le_max_right _ _))
      have h8 : Real.exp (-Real.log (((n : ℝ) + 1) / ε)) = ε / ((n : ℝ) + 1) := by
        rw [Real.exp_neg, Real.exp_log hpos, inv_div]
      rw [h8] at h2
      exact h2
    have hS0 : 0 ≤ S := sum_map_nonneg _ (fun x => le_of_lt (Real.exp_pos _)) t
    have hlog : Real.log (1 + S) ≤ S := by
      have h3 : (0 : ℝ) < 1 + S := by linarith
      have := Real.log_le_sub_one_of_pos h3
      linarith
    have hfin : (n : ℝ) * (ε / ((n : ℝ) + 1)) ≤ ε := by
      have hnn : (0 : ℝ) < (n : ℝ) + 1 := by positivity
      have hd : 0 ≤ ε / ((n : ℝ) + 1) := le_of_lt (by positivity)
      have h4 : (n : ℝ) * (ε / ((n : ℝ) + 1)) ≤ ((n : ℝ) + 1) * (ε / ((n : ℝ) + 1)) :=
        mul_le_mul_of_nonneg_right (by linarith) hd
      have h5 : ((n : ℝ) + 1) * (ε / ((n : ℝ) + 1)) = ε := by field_simp
      rw [h5] at h4
      exact h4
    have hchain : S ≤ ε := by
      have h7 : (n : ℝ) * Real.exp (-M) ≤ (n : ℝ) * (ε / ((n : ℝ) + 1)) :=
        mul_le_mul_of_nonneg_left hexpM (Nat.cast_nonneg n)
      linarith
    rw [hS_eq]
    linarith

/-- `getD` after `set` at the written index. -/
theorem getD_set_self (ns : List ℕ) (j v : ℕ) (h : j < ns.length) :
    (ns.set j v).getD j 0 = v := by
  induction ns generalizing j with
  | nil => simp at h
  | cons a t ih =>
    cases j with
    | zero => rfl
    | succ j2 =>
      rw [List.set_cons_succ, List.getD_cons_succ]
      exact ih j2 (by simpa using h)

/-- `getD` after `set` at a different index. -/
theorem getD_set_ne (ns : List ℕ) (j v k : ℕ) (h : j ≠ k) :
    (ns.set j v).getD k 0 = ns.getD k 0 := by
  induction ns generalizing j k with
  | nil => rfl
  | cons a t ih =>
    cases j with
    | zero =>
      cases k with
      | zero => exact absurd rfl h
      | succ k2 => rfl
    | succ j2 =>
      cases k with
      | zero => rfl
      | succ k2 =>
        rw [List.set_cons_succ, List.getD_cons_succ, List.getD_cons_succ]
        exact ih j2 k2 (fun he => h (by rw [he]))

/-- `bumpAt` preserves the length of the count list. -/
theorem bumpAt_length (ns : List ℕ) (k : ℕ) : (bumpAt ns k).length = ns.length :=
  List.length_set ns k _

/-- An in-range `bumpAt` adds one to the total count. -/
theorem bumpAt_sum (ns : List ℕ) (k : ℕ) (h : k < ns.length) :
    (bumpAt ns k).sum = ns.sum + 1 := by
  induction ns generalizing k with
  | nil => simp at h
  | cons a t ih =>
    cases k with
    | zero =>
      simp only [bumpAt, List.getD_cons_zero, List.set_cons_zero, List.sum_cons]
      omega
    | succ k2 =>
      simp only [bumpAt, List.getD_cons_succ, List.set_cons_succ, List.sum_cons]
      have := ih k2 (by simpa using h)
      simp only [bumpAt] at this
      omega

/-- The counting fold preserves the length of the count list. -/
theorem foldl_bump_length (f : Transition → ℕ) (exps : List Transition) :
    ∀ ns : List ℕ, (exps.foldl (fun ns e => bumpAt ns (f e)) ns).length = ns.length := by
  induction exps with
  | nil => intro ns; rfl
  | cons e rest ih =>
    intro ns
    rw [List.foldl_cons, ih, bumpAt_length]

/-- The counting fold adds, at each in-range index, the number of
entries classified there. -/
theorem foldl_bump_getD (f : Transition → ℕ) (exps : List Transition) :
    ∀ (ns : List ℕ) (k : ℕ), k < ns.length →
      (exps.foldl (fun ns e => bumpAt ns (f e)) ns).getD k 0
        = ns.getD k 0 + exps.countP (fun e => decide (f e = k)) := by
  induction exps with
  | nil => intro ns k hk; simp
  | cons e rest ih =>
    intro ns k hk
    rw [List.foldl_cons, ih (bumpAt ns (f e)) k (by rw [bumpAt_length]; exact hk),
      List.countP_cons]
    by_cases hfe : f e = k
    · have hk2 : f e < ns.length := by rw [hfe]; exact hk
      rw [hfe]
      unfold bumpAt
      rw [getD_set_self ns k _ hk]
      simp
      omega
    · unfold bumpAt
      rw [getD_set_ne ns (f e) _ k hfe]
      simp [hfe]

/-- The counting fold adds the batch size to the total count when
every classification is in range. -/
theorem foldl_bump_sum (f : Transition → ℕ) (exps : List Transition) :
    ∀ ns : List ℕ, (∀ e ∈ exps, f e < ns.length) →
      (exps.foldl (fun ns e => bumpAt ns (f e)) ns).sum = ns.sum + exps.length := by
  induction exps with
  | nil => intro ns _; simp
  | cons e rest ih =>
    intro ns h
    rw [List.foldl_cons,
      ih (bumpAt ns (f e)) (fun x hx => by
        rw [bumpAt_length]; exact h x (List.mem_cons_of_mem e hx)),
      bumpAt_sum ns (f e) (h e (List.mem_cons_self e rest))]
    simp only [List.length_cons]
    omega

/-- The policy index always selects one of the
`len(reward_boundaries) + 1` buckets. -/
theorem policy_index_lt (reward_boundaries : List ℚ) (ob : Obs) :
    RewardBasedSampler._policy_index reward_boundaries ob < reward_boundaries.length + 1 :=
  Nat.lt_succ_of_le (List.countP_le_length _)

/-- `getD` of a replicated zero list is zero. -/
theorem getD_replicate_zero (n k : ℕ) : (List.replicate n (0 : ℕ)).getD k 0 = 0 := by
  induction n generalizing k with
  | zero => rfl
  | succ n2 ih =>
    cases k with
    | zero => rfl
    | succ k2 =>
      rw [List.replicate_succ, List.getD_cons_succ]
      exact ih k2

/-- The `n_samples` list has one slot per bucket. -/
theorem countSamples_length (reward_boundaries : List ℚ) (exps : List Transition) :
    (countSamples reward_boundaries exps).length = reward_boundaries.length + 1 := by
  have h := foldl_bump_length
    (fun e => RewardBasedSampler._policy_index reward_boundaries e.state) exps
    (List.replicate (reward_boundaries.length + 1) 0)
  rw [List.length_replicate] at h
  exact h

/-- Each `n_samples` slot holds the number of incoming experiences
whose state classifies into that bucket. -/
theorem countSamples_getD (reward_boundaries : List ℚ) (exps : List Transition) (k : ℕ)
    (hk : k < reward_boundaries.length + 1) :
    (countSamples reward_boundaries exps).getD k 0
      = exps.countP (fun e =>
          decide (RewardBasedSampler._policy_index reward_boundaries e.state = k)) := by
  have h := foldl_bump_getD
    (fun e => RewardBasedSampler._policy_index reward_boundaries e.state) exps
    (List.replicate (reward_boundaries.length + 1) 0) k
    (by rw [List.length_replicate]; exact hk)
  rw [getD_replicate_zero, Nat.zero_add] at h
  exact h

/-- The `n_samples` slots total the incoming batch size. -/
theorem countSamples_sum (reward_boundaries : List ℚ) (exps : List Transition) :
    (countSamples reward_boundaries exps).sum = exps.length := by
  have h := foldl_bump_sum
    (fun e => RewardBasedSampler._policy_index reward_boundaries e.state) exps
    (List.replicate (reward_boundaries.length + 1) 0)
    (fun e _ => by
      rw [List.length_replicate]
      exact policy_index_lt reward_boundaries e.state)
  rw [List.sum_replicate, smul_zero, Nat.zero_add] at h
  exact h

/-- One draw never changes the boundaries. -/
theorem drawOne_boundaries (s : RewardBasedSampler) :
    s.drawOne.reward_boundaries = s.reward_boundaries := rfl

/-- One draw never changes the number of buckets. -/
theorem drawOne_buffers_length (s : RewardBasedSampler) :
    s.drawOne.replay_buffers.length = s.replay_buffers.length :=
  List.length_set s.replay_buffers _ _

/-- Topping up never changes the boundaries. -/
theorem update_buffer_boundaries (s : RewardBasedSampler) (n : ℕ) :
    (s._update_buffer n).reward_boundaries = s.reward_boundaries := by
  induction n generalizing s with
  | zero => rfl
  | succ n2 ih =>
    show (s.drawOne._update_buffer n2).reward_boundaries = s.reward_boundaries
    rw [ih s.drawOne, drawOne_boundaries]

/-- Topping up never changes the number of buckets. -/
theorem update_buffer_buffers_length (s : RewardBasedSampler) (n : ℕ) :
    (s._update_buffer n).replay_buffers.length = s.replay_buffers.length := by
  induction n generalizing s with
  | zero => rfl
  | succ n2 ih =>
    show (s.drawOne._update_buffer n2).replay_buffers.length = s.replay_buffers.length
    rw [ih s.drawOne, drawOne_buffers_length]

/-- Indexing into the per-bucket takes. -/
theorem zipWith_take_getD (bufs : List (List Transition)) (ns : List ℕ) (k : ℕ)
    (hk1 : k < bufs.length) (hk2 : k < ns.length) :
    (List.zipWith (fun buf n => buf.take n) bufs ns).getD k []
      = (bufs.getD k []).take (ns.getD k 0) := by
  induction bufs generalizing ns k with
  | nil => simp at hk1
  | cons buf bufs2 ih =>
    cases ns with
    | nil => simp at hk2
    | cons n ns2 =>
      cases k with
      | zero => rfl
      | succ k2 =>
        rw [List.zipWith_cons_cons, List.getD_cons_succ, List.getD_cons_succ,
          List.getD_cons_succ]
        exact ih ns2 k2 (by simpa using hk1) (by simpa using hk2)

/-- Total length of the per-bucket takes, when every bucket is large
enough. -/
theorem zipWith_take_flatten_length (bufs : List (List Transition)) (ns : List ℕ)
    (hl : bufs.length = ns.length)
    (hc : ∀ k, k < bufs.length → ns.getD k 0 ≤ (bufs.getD k []).length) :
    (List.zipWith (fun buf n => buf.take n) bufs ns).flatten.length = ns.sum := by
  induction bufs generalizing ns with
  | nil =>
    cases ns with
    | nil => rfl
    | cons n ns2 => simp at hl
  | cons buf bufs2 ih =>
    cases ns with
    | nil => simp at hl
    | cons n ns2 =>
      rw [List.zipWith_cons_cons, List.flatten_cons, List.length_append, List.length_take,
        List.sum_cons]
      have h0 : n ≤ buf.length := hc 0 (by simp)
      have ih2 := ih ns2 (by simpa using hl) (fun k hk => by
        have := hc (k + 1) (by simpa using Nat.succ_lt_succ hk)
        simpa using this)
      rw [ih2]
      omega

/-- C3: for every nonempty batch of experiences (with well-formed
sampler state and sufficiently filled buckets),
`RewardBasedSampler.sample` returns exactly `len(experiences)`
demonstration transitions, as a concatenation in bucket order of
per-bucket segments, where the segment of bucket `k` contains exactly
as many transitions as there are input experiences whose state
classifies to policy index `k`, each drawn from bucket `k`'s
(topped-up) buffer. -/
theorem c3_sample_counts (s : RewardBasedSampler) (exps : List Transition)
    (hne : exps ≠ [])
    (hlen : s.replay_buffers.length = s.reward_boundaries.length + 1)
    (hcap : ∀ k, k < s.reward_boundaries.length + 1 →
      (countSamples s.reward_boundaries exps).getD k 0
        ≤ (((s._update_buffer exps.length).replay_buffers).getD k []).length) :
    (s.sample exps).1.length = exps.length ∧
    ∃ segs : List (List Transition),
      (s.sample exps).1 = segs.flatten ∧
      segs.length = s.reward_boundaries.length + 1 ∧
      ∀ k, k < segs.length →
        (segs.getD k []).length
            = exps.countP (fun e =>
                decide (RewardBasedSampler._policy_index s.reward_boundaries e.state = k)) ∧
        ∀ tr ∈ segs.getD k [],
          tr ∈ ((s._update_buffer exps.length).replay_buffers).getD k [] := by
  have hbnd : (s._update_buffer exps.length).reward_boundaries = s.reward_boundaries :=
    update_buffer_boundaries s exps.length
  have hbl : (s._update_buffer exps.length).replay_buffers.length
      = s.reward_boundaries.length + 1 := by
    rw [update_buffer_buffers_length, hlen]
  have hsample : (s.sample exps).1
      = (List.zipWith (fun buf n => buf.take n)
          (s._update_buffer exps.length).replay_buffers
          (countSamples (s._update_buffer exps.length).reward_boundaries exps)).flatten := rfl
  rw [hbnd] at hsample
  have hnslen : (countSamples s.reward_boundaries exps).length
      = s.reward_boundaries.length + 1 := countSamples_length s.reward_boundaries exps
  constructor
  · rw [hsample,
      zipWith_take_flatten_length (s._update_buffer exps.length).replay_buffers
        (countSamples s.reward_boundaries exps) (by rw [hbl, hnslen])
        (fun k hk => hcap k (by rw [← hbl]; exact hk)),
      countSamples_sum]
  · refine ⟨List.zipWith (fun buf n => buf.take n)
      (s._update_buffer exps.length).replay_buffers
      (countSamples s.reward_boundaries exps), hsample, ?_, ?_⟩
    · rw [List.length_zipWith, hbl, hnslen, min_self]
    · intro k hk
      rw [List.length_zipWith, hbl, hnslen, min_self] at hk
      have hk1 : k < (s._update_buffer exps.length).replay_buffers.length := by
        rw [hbl]; exact hk
      have hk2 : k < (countSamples s.reward_boundaries exps).length := by
        rw [hnslen]; exact hk
      rw [zipWith_take_getD (s._update_buffer exps.length).replay_buffers
        (countSamples s.reward_boundaries exps) k hk1 hk2]
      constructor
      · rw [List.length_take, min_eq_left (hcap k hk), countSamples_getD _ _ k hk]
      · intro tr htr
        exact List.take_subset _ _ htr

/-- Witness for C3 at a concrete sampler state and one-experience
batch classifying into bucket 1. -/
theorem c3_sample_counts_witness :
    (samplerWitness.sample [demoTransition 5 99]).1.length = [demoTransition 5 99].length ∧
    ∃ segs : List (List Transition),
      (samplerWitness.sample [demoTransition 5 99]).1 = segs.flatten ∧
      segs.length = samplerWitness.reward_boundaries.length + 1 ∧
      ∀ k, k < segs.length →
        (segs.getD k []).length
            = [demoTransition 5 99].countP (fun e =>
                decide (RewardBasedSampler._policy_index samplerWitness.reward_boundaries
                  e.state = k)) ∧
        ∀ tr ∈ segs.getD k [],
          tr ∈ ((samplerWitness._update_buffer
            [demoTransition 5 99].length).replay_buffers).getD k [] := by
  apply c3_sample_counts samplerWitness [demoTransition 5 99] (by simp) (by simp [samplerWitness])
  have h1 : RewardBasedSampler._policy_index [1] { cumReward := (0 : ℚ) } = 0 := by
    norm_num [RewardBasedSampler._policy_index, List.countP, List.countP.go]
  have h2 : RewardBasedSampler._policy_index [1] { cumReward := (5 : ℚ) } = 1 := by
    norm_num [RewardBasedSampler._policy_index, List.countP, List.countP.go]
  have hupd : (samplerWitness._update_buffer [demoTransition 5 99].length).replay_buffers
      = [[demoTransition 0 10,
          { state := { cumReward := 0 }, action := 0, reward := 1,
            next_state := { cumReward := 0 }, next_action := none,
            is_state_terminal := false }],
         [demoTransition 5 11]] := by
    show samplerWitness.drawOne.replay_buffers = _
    simp [RewardBasedSampler.drawOne, samplerWitness, fifoAppend, h1, demoTransition]
  have hcount : countSamples samplerWitness.reward_boundaries [demoTransition 5 99]
      = [0, 1] := by
    simp [countSamples, bumpAt, samplerWitness, demoTransition, h2]
  intro k hk
  rw [hcount, hupd]
  simp only [samplerWitness, List.length_cons, List.length_nil] at hk
  interval_cases k <;> simp
